import Mathlib

/-!
Verification of the CPU-profile call-stack reconstruction and aggregation
engine (`scripts/analyze-cpu-profile.js`).

The JavaScript source is embedded shallowly: node ids are `Int` (JS numbers
used as indices), the node table is a `List ProfileNode`, the derived
parent/child adjacency maps are functions `Int → List Int` (a missing key of
the JS `Map` is the empty list, matching the `|| []` / `parents &&
parents.length > 0` guards in the source), and the JS `Set` objects become
`Finset Int`.
-/

/-- Call-frame identity of a profile node (`node.callFrame`); absent fields
are modelled by the JS falsy fallbacks applied at the use sites (`""` for
strings, `0` for numbers). -/
structure CallFrame where
  functionName : String
  url : String
  lineNumber : Int
  columnNumber : Int
deriving DecidableEq, Repr

/-- One entry of the flattened call graph (`profile.nodes[i]`); `children`
holds node indices into the same table. -/
structure ProfileNode where
  callFrame : CallFrame
  hitCount : Nat
  children : List Int
deriving DecidableEq, Repr

/-- The parts of a parsed `.cpuprofile` used by the analysis core. -/
structure Profile where
  nodes : List ProfileNode
  samples : List Int
  timeDeltas : List Int
deriving DecidableEq, Repr

/-- Derived adjacency index returned by `buildNodeTree`: `parentMap` maps a
child id to the node indices listing it among their children, `childMap`
maps a node index to its recorded children. -/
structure NodeTree where
  parentMap : Int → List Int
  childMap : Int → List Int

/-- Record one edge in an adjacency map: `m.get(k).push(v)` on a JS `Map`
whose missing keys read as `[]`. -/
def addEdge (m : Int → List Int) (k v : Int) : Int → List Int :=
  fun x => if x = k then m k ++ [v] else m x

/-- Inner loop of `buildNodeTree`: for each child id `c` of node `i`, record
the parent edge `c → i` and the child edge `i → c`. -/
def addNodeEdges (pm cm : Int → List Int) (i : Int) :
    List Int → (Int → List Int) × (Int → List Int)
  | [] => (pm, cm)
  | c :: cs => addNodeEdges (addEdge pm c i) (addEdge cm i c) i cs

/-- Outer loop of `buildNodeTree` over the node table, `i` being the index
of the first remaining node. -/
def buildNodeTreeGo (pm cm : Int → List Int) (i : Int) :
    List ProfileNode → NodeTree
  | [] => ⟨pm, cm⟩
  | n :: rest =>
      let maps := addNodeEdges pm cm i n.children
      buildNodeTreeGo maps.1 maps.2 (i + 1) rest

/-- `buildNodeTree(nodes)` from the source: builds the parent and child maps
from every node's `children` list, starting from empty maps. -/
def buildNodeTree (nodes : List ProfileNode) : NodeTree :=
  buildNodeTreeGo (fun _ => []) (fun _ => []) 0 nodes

/-- The `children` list of the node stored at (integer) index `i`, empty
when `i` is out of range; the reference reading of what edges the node
table itself declares. -/
def childrenAt (nodes : List ProfileNode) (i : Int) : List Int :=
  if 0 ≤ i then ((nodes.get? i.toNat).map ProfileNode.children).getD [] else []

/-- One reconstructed step of an ancestor walk, as pushed by
`getCallStackUp`; `line`/`column` keep the raw numbers, the JS falsy
coalescing (`lineNumber || ''`) is applied where the values are consumed. -/
structure Frame where
  index : Int
  function : String
  url : String
  line : Int
  column : Int
deriving DecidableEq, Repr

/-- Frame built from the node found at `current` (`stack.push({...})` in
`getCallStackUp`), with the `functionName || '(anonymous)'` fallback. -/
def mkFrame (i : Int) (n : ProfileNode) : Frame :=
  { index := i
    function := if n.callFrame.functionName = "" then "(anonymous)" else n.callFrame.functionName
    url := n.callFrame.url
    line := n.callFrame.lineNumber
    column := n.callFrame.columnNumber }

/-- Loop body of `getCallStackUp`, with the remaining depth budget
(`maxDepth - depth`) as structural fuel: the JS loop runs while
`current >= 0 && depth < maxDepth && !visited.has(current)`, pushes a frame
when `current < nodes.length`, then follows the first recorded parent. -/
def goUp (nodes : List ProfileNode) (pm : Int → List Int) :
    Nat → Int → Finset Int → List Frame
  | 0, _, _ => []
  | fuel + 1, current, visited =>
      if current < 0 ∨ current ∈ visited then []
      else
        let frames :=
          match nodes.get? current.toNat with
          | some node => [mkFrame current node]
          | none => []
        match pm current with
        | [] => frames
        | p :: _ => frames ++ goUp nodes pm fuel p (insert current visited)

/-- `getCallStackUp(nodes, parentMap, nodeIndex, maxDepth = 20)` from the
source. -/
def getCallStackUp (nodes : List ProfileNode) (pm : Int → List Int)
    (nodeIndex : Int) (maxDepth : Nat := 20) : List Frame :=
  goUp nodes pm maxDepth nodeIndex ∅

/-- Edge relation of the child maps: `b` is listed among `a`'s recorded
children. -/
def childStep (g : Int → List Int) (a b : Int) : Prop := b ∈ g a

/-- Worklist rendering of the visited-set recursion shared by
`findDescendants` (in `buildCallStack`) and `collectDescendants` (in
`analyzeChildren`): pop an id, skip it when already collected, otherwise
collect it and queue its children.  `univ` is a finite superset of every id
the child map can produce (`hg`), which bounds the visited set and makes the
JS termination argument explicit. -/
def collectGo (g : Int → List Int) (univ : Finset Int)
    (hg : ∀ x y, y ∈ g x → y ∈ univ) :
    List Int → Finset Int → Finset Int
  | [], vis => vis
  | x :: rest, vis =>
      if x ∈ vis then
        collectGo g univ hg rest vis
      else
        collectGo g univ hg (g x ++ rest) (insert x vis)
termination_by work vis => (((univ ∪ work.toFinset) \ vis).card, work.length)
decreasing_by
  · apply Prod.Lex.right'
    · apply Finset.card_le_card
      intro z hz
      simp only [Finset.mem_sdiff, Finset.mem_union, List.mem_toFinset, List.mem_cons] at hz ⊢
      tauto
    · exact Nat.lt_succ_self _
  · apply Prod.Lex.left
    apply Finset.card_lt_card
    have hsub : (univ ∪ (g x ++ rest).toFinset) \ insert x vis ⊆
        (univ ∪ (x :: rest).toFinset) \ vis := by
      intro z hz
      simp only [Finset.mem_sdiff, Finset.mem_union, List.mem_toFinset, List.mem_append,
        List.mem_cons, Finset.mem_insert, not_or] at hz ⊢
      rcases hz with ⟨h1, _, h3⟩
      refine ⟨?_, h3⟩
      rcases h1 with h | h | h
      · exact Or.inl h
      · exact Or.inl (hg x z h)
      · exact Or.inr (Or.inr h)
    refine (Finset.ssubset_iff_of_subset hsub).2 ⟨x, ?_, ?_⟩
    · simp only [Finset.mem_sdiff, Finset.mem_union, List.mem_toFinset, List.mem_cons]
      exact ⟨by tauto, by assumption⟩
    · simp

/-- Membership in a map extended by `addEdge`. -/
lemma mem_addEdge {m : Int → List Int} {k v j x : Int} :
    x ∈ addEdge m k v j ↔ x ∈ m j ∨ (j = k ∧ x = v) := by
  unfold addEdge
  by_cases h : j = k
  · subst h; simp
  · simp [h]

/-- Parent-map component of the inner edge loop. -/
lemma addNodeEdges_fst (i : Int) : ∀ (cs : List Int) (pm cm : Int → List Int) (j x : Int),
    x ∈ (addNodeEdges pm cm i cs).1 j ↔ x ∈ pm j ∨ (x = i ∧ j ∈ cs) := by
  intro cs
  induction cs with
  | nil => intro pm cm j x; simp [addNodeEdges]
  | cons c cs ih =>
      intro pm cm j x
      simp only [addNodeEdges]
      rw [ih, mem_addEdge]
      simp only [List.mem_cons]
      tauto

/-- Child-map component of the inner edge loop. -/
lemma addNodeEdges_snd (i : Int) : ∀ (cs : List Int) (pm cm : Int → List Int) (j x : Int),
    x ∈ (addNodeEdges pm cm i cs).2 j ↔ x ∈ cm j ∨ (j = i ∧ x ∈ cs) := by
  intro cs
  induction cs with
  | nil => intro pm cm j x; simp [addNodeEdges]
  | cons c cs ih =>
      intro pm cm j x
      simp only [addNodeEdges]
      rw [ih, mem_addEdge]
      simp only [List.mem_cons]
      tauto

/-- Unfolding `childrenAt` over a cons cell. -/
lemma childrenAt_cons (n : ProfileNode) (rest : List ProfileNode) (i : Int) :
    childrenAt (n :: rest) i = if i = 0 then n.children else childrenAt rest (i - 1) := by
  unfold childrenAt
  by_cases h0 : i = 0
  · subst h0; simp
  · rw [if_neg h0]
    by_cases hpos : 0 ≤ i
    · have hi : 0 < i := lt_of_le_of_ne hpos (Ne.symm h0)
      have h1 : (0 : Int) ≤ i - 1 := by omega
      have h2 : i.toNat = (i - 1).toNat + 1 := by omega
      rw [if_pos hpos, if_pos h1, h2]
      simp
    · rw [if_neg hpos, if_neg (by omega : ¬ (0 : Int) ≤ i - 1)]

/-- Out-of-range (negative) indices have no declared children. -/
lemma childrenAt_neg {nodes : List ProfileNode} {i : Int} (h : i < 0) :
    childrenAt nodes i = [] := by
  unfold childrenAt
  rw [if_neg (by omega)]

/-- Child map accumulated by the outer loop, relative to the running base
index `b`. -/
lemma buildNodeTreeGo_childMap :
    ∀ (nodes : List ProfileNode) (pm cm : Int → List Int) (b j x : Int),
    x ∈ (buildNodeTreeGo pm cm b nodes).childMap j ↔ x ∈ cm j ∨ x ∈ childrenAt nodes (j - b) := by
  intro nodes
  induction nodes with
  | nil => intro pm cm b j x; simp [buildNodeTreeGo, childrenAt]
  | cons n rest ih =>
      intro pm cm b j x
      simp only [buildNodeTreeGo]
      rw [ih, addNodeEdges_snd, childrenAt_cons]
      by_cases hj : j = b
      · rw [if_pos (by omega : j - b = 0), childrenAt_neg (by omega : j - (b + 1) < 0)]
        simp only [List.not_mem_nil, or_false]
        tauto
      · rw [if_neg (by omega), (by ring : j - (b + 1) = j - b - 1)]
        tauto

/-- Parent map accumulated by the outer loop, relative to the running base
index `b`. -/
lemma buildNodeTreeGo_parentMap :
    ∀ (nodes : List ProfileNode) (pm cm : Int → List Int) (b j x : Int),
    x ∈ (buildNodeTreeGo pm cm b nodes).parentMap j ↔ x ∈ pm j ∨ j ∈ childrenAt nodes (x - b) := by
  intro nodes
  induction nodes with
  | nil => intro pm cm b j x; simp [buildNodeTreeGo, childrenAt]
  | cons n rest ih =>
      intro pm cm b j x
      simp only [buildNodeTreeGo]
      rw [ih, addNodeEdges_fst, childrenAt_cons]
      by_cases hx : x = b
      · rw [if_pos (by omega : x - b = 0), childrenAt_neg (by omega : x - (b + 1) < 0)]
        simp only [List.not_mem_nil, or_false]
        tauto
      · rw [if_neg (by omega), (by ring : x - (b + 1) = x - b - 1)]
        tauto

/-- The child map of `buildNodeTree` holds exactly the edges declared by the
node table. -/
lemma mem_childMap (nodes : List ProfileNode) (j x : Int) :
    x ∈ (buildNodeTree nodes).childMap j ↔ x ∈ childrenAt nodes j := by
  unfold buildNodeTree
  rw [buildNodeTreeGo_childMap]
  simp

/-- The parent map of `buildNodeTree` holds exactly the reversed edges
declared by the node table. -/
lemma mem_parentMap (nodes : List ProfileNode) (j x : Int) :
    x ∈ (buildNodeTree nodes).parentMap j ↔ j ∈ childrenAt nodes x := by
  unfold buildNodeTree
  rw [buildNodeTreeGo_parentMap]
  simp

/-- Finite universe of ids that can appear in any `children` list; bounds
the descendant collections. -/
def idUniv (nodes : List ProfileNode) : Finset Int :=
  nodes.foldr (fun n acc => n.children.toFinset ∪ acc) ∅

/-- Every declared child id lies in `idUniv`. -/
lemma childrenAt_subset_idUniv {nodes : List ProfileNode} {i x : Int}
    (h : x ∈ childrenAt nodes i) : x ∈ idUniv nodes := by
  induction nodes generalizing i with
  | nil => simp [childrenAt] at h
  | cons n rest ih =>
      rw [childrenAt_cons] at h
      by_cases h0 : i = 0
      · rw [if_pos h0] at h
        simp only [idUniv, List.foldr_cons, Finset.mem_union, List.mem_toFinset]
        exact Or.inl h
      · rw [if_neg h0] at h
        simp only [idUniv, List.foldr_cons, Finset.mem_union]
        exact Or.inr (ih h)

/-- The child map of the adjacency index only produces ids of `idUniv`. -/
lemma childMap_mem_idUniv (nodes : List ProfileNode) :
    ∀ x y, y ∈ (buildNodeTree nodes).childMap x → y ∈ idUniv nodes := by
  intro x y hy
  rw [mem_childMap] at hy
  exact childrenAt_subset_idUniv hy

/-- Descendant set of `findDescendants` inside `buildCallStack`: the visited
set starts as `new Set([targetNodeIndex])` and the worklist as the target's
recorded children. -/
def targetDescendantsSet (nodes : List ProfileNode) (target : Int) : Finset Int :=
  collectGo (buildNodeTree nodes).childMap (idUniv nodes) (childMap_mem_idUniv nodes)
    ((buildNodeTree nodes).childMap target) (insert target ∅)

/-- Descendant set of `collectDescendants` inside `analyzeChildren`: the
visited set starts empty, so the target itself is collected only if some
child-edge path leads back to it. -/
def collectDescendants (nodes : List ProfileNode) (target : Int) : Finset Int :=
  collectGo (buildNodeTree nodes).childMap (idUniv nodes) (childMap_mem_idUniv nodes)
    ((buildNodeTree nodes).childMap target) ∅

/-- Per-sample record pushed by `buildCallStack`
(`{ stack: relevantStack, timeDelta, sampleIndex: i }`). -/
structure CallStackRec where
  stack : List Frame
  timeDelta : Int
  sampleIndex : Nat
deriving DecidableEq, Repr

/-- Sample loop of `buildCallStack`: a sample qualifies when its node is in
the descendant set or the target appears in its upward walk; the record is
kept only when the target is actually found in the reconstructed chain.
`i` is the running sample index. -/
def processSamples (nodes : List ProfileNode) (pm : Int → List Int) (tds : List Int)
    (descSet : Finset Int) (target : Int) : List Int → Nat → List CallStackRec
  | [], _ => []
  | s :: rest, i =>
      if s ∈ descSet ∨ (getCallStackUp nodes pm s).any (fun f => decide (f.index = target)) then
        match (getCallStackUp nodes pm s).findIdx? (fun f => decide (f.index = target)) with
        | none => processSamples nodes pm tds descSet target rest (i + 1)
        | some ti =>
            let relevantStack := ((getCallStackUp nodes pm s).take (ti + 1)).reverse
            if 0 < relevantStack.length then
              { stack := relevantStack, timeDelta := tds.getD i 0, sampleIndex := i } ::
                processSamples nodes pm tds descSet target rest (i + 1)
            else processSamples nodes pm tds descSet target rest (i + 1)
      else processSamples nodes pm tds descSet target rest (i + 1)

/-- `buildCallStack(profile, targetNodeIndex)` from the source. -/
def buildCallStack (p : Profile) (targetNodeIndex : Int) : List CallStackRec :=
  processSamples p.nodes (buildNodeTree p.nodes).parentMap p.timeDeltas
    (targetDescendantsSet p.nodes targetNodeIndex) targetNodeIndex p.samples 0

/-- Shortened file name used in signatures:
`f.url ? f.url.split('/').pop() : '(native)'`. -/
def urlShortOf (url : String) : String :=
  if url = "" then "(native)" else (url.splitOn "/").getLastD ""

/-- Line field as rendered in signatures (the frame keeps `lineNumber || ''`
and the key builder applies `f.line || '?'`, so a zero or absent line number
prints as `?`). -/
def lineStr (line : Int) : String :=
  if line = 0 then "?" else toString line

/-- Signature fragment of one caller frame:
`functionName@shortFileName:lineNumber`. -/
def frameSig (f : Frame) : String :=
  f.function ++ "@" ++ urlShortOf f.url ++ ":" ++ lineStr f.line

/-- Signature string of a caller list, the `stackKey` of
`aggregateCallStacks` — frame signatures joined by a fixed separator. -/
def stackKey (callers : List Frame) : String :=
  String.intercalate " -> " (callers.map frameSig)

/-- One equivalence class of caller paths (`stackMap` value): the caller
list, its occurrence count, summed time cost, and per-sample costs. -/
structure Entry where
  stack : List Frame
  count : Nat
  totalTime : Int
  samples : List Int
deriving DecidableEq, Repr

/-- Insertion-ordered map update of `aggregateCallStacks`: a fresh key is
appended with a one-sample entry (the JS code creates it with `count: 0`
and immediately increments), an existing key is updated in place. -/
def aggInsert : List (String × Entry) → String → List Frame → Int → List (String × Entry)
  | [], key, callers, delta =>
      [(key, { stack := callers, count := 1, totalTime := delta, samples := [delta] })]
  | (k, e) :: rest, key, callers, delta =>
      if k = key then
        (k, { e with count := e.count + 1, totalTime := e.totalTime + delta,
                     samples := e.samples ++ [delta] }) :: rest
      else (k, e) :: aggInsert rest key callers delta

/-- Accumulation loop of `aggregateCallStacks`: for each call-stack record
the callers are `stack.slice(0, -1)` — everything except the LAST frame —
and the record is folded into the entry of their `stackKey`. -/
def aggregateMap (callStacks : List CallStackRec) : List (String × Entry) :=
  callStacks.foldl
    (fun m r => aggInsert m (stackKey r.stack.dropLast) r.stack.dropLast r.timeDelta) []

/-- Order used by the final `sort`: descending `count`, ties broken by
descending `totalTime` (`(a, b) => b.count - a.count || b.totalTime -
a.totalTime`). -/
def entryLE (a b : Entry) : Bool :=
  if a.count = b.count then decide (b.totalTime ≤ a.totalTime) else decide (b.count < a.count)

/-- `aggregateCallStacks(callStacks)` from the source: fold all records into
the keyed map, then sort the entries. -/
def aggregateCallStacks (callStacks : List CallStackRec) : List Entry :=
  ((aggregateMap callStacks).map Prod.snd).mergeSort entryLE

/-- The `maxCount` computed in `analyzeProfile`
(`aggregated[0]?.count || 1`) and passed to `formatStackEntry`. -/
def maxCountOf (aggregated : List Entry) : Nat :=
  match aggregated with
  | [] => 1
  | e :: _ => if e.count = 0 then 1 else e.count

/-- The percentage printed by `formatStackEntry` (before the two-decimal
rounding of `toFixed`): `(entry.count / maxCount) * 100`. -/
def percentageOf (e : Entry) (maxCount : Nat) : ℚ :=
  (e.count : ℚ) / (maxCount : ℚ) * 100

/-- The qualification test the sample loop effectively applies: the target
node appears in the reconstructed ancestor chain of the sample's node. -/
def chainContains (nodes : List ProfileNode) (pm : Int → List Int) (target s : Int) : Bool :=
  (getCallStackUp nodes pm s).any (fun f => decide (f.index = target))

/-- Bounds of a successful `findIdx?` with start offset `s`. -/
lemma findIdx?_some_bounds {α : Type} (p : α → Bool) :
    ∀ (l : List α) (s ti : Nat), List.findIdx? p l s = some ti → s ≤ ti ∧ ti < s + l.length := by
  intro l
  induction l with
  | nil => intro s ti h; rw [List.findIdx?_nil] at h; cases h
  | cons a l ih =>
      intro s ti h
      rw [List.findIdx?_cons] at h
      by_cases hp : p a = true
      · rw [if_pos hp] at h
        cases h
        simp
      · rw [if_neg hp] at h
        have := ih (s + 1) ti h
        constructor <;> [omega; (simp only [List.length_cons]; omega)]

/-- A satisfied `any` guarantees a successful `findIdx?`. -/
lemma findIdx?_isSome_of_any {α : Type} {p : α → Bool} {l : List α}
    (h : l.any p = true) : ∃ ti, l.findIdx? p = some ti ∧ ti < l.length := by
  rcases ho : l.findIdx? p with _ | ti
  · rw [List.findIdx?_eq_none_iff] at ho
    rw [List.any_eq_true] at h
    rcases h with ⟨x, hx, hpx⟩
    rw [ho x hx] at hpx
    cases hpx
  · have := findIdx?_some_bounds p l 0 ti ho
    exact ⟨ti, rfl, by omega⟩

/-- A failed `any` means `findIdx?` fails too. -/
lemma findIdx?_eq_none_of_any {α : Type} {p : α → Bool} {l : List α}
    (h : l.any p = false) : l.findIdx? p = none := by
  rw [List.findIdx?_eq_none_iff]
  intro x hx
  by_contra hp
  have hx2 : l.any p = true := List.any_eq_true.2 ⟨x, hx, by simpa using hp⟩
  rw [h] at hx2
  cases hx2

/-- The `relevantStack` a qualifying sample contributes: the reconstructed
chain is cut at the target's position (`slice(0, targetIndex + 1)`) and
reversed, which yields the segment running from the TARGET DOWN TO THE
SAMPLE's own frame. -/
def relevantStackOf (nodes : List ProfileNode) (pm : Int → List Int) (target s : Int) :
    List Frame :=
  match (getCallStackUp nodes pm s).findIdx? (fun f => decide (f.index = target)) with
  | none => []
  | some ti => ((getCallStackUp nodes pm s).take (ti + 1)).reverse

/-- Sample loop with the (observationally redundant) descendant-set shortcut
removed; proved equal to `processSamples` in `processSamples_eq_simple` and
used to evaluate the pipeline on concrete profiles. -/
def processSimple (nodes : List ProfileNode) (pm : Int → List Int) (tds : List Int)
    (target : Int) : List Int → Nat → List CallStackRec
  | [], _ => []
  | s :: rest, i =>
      if chainContains nodes pm target s then
        { stack := relevantStackOf nodes pm target s, timeDelta := tds.getD i 0,
          sampleIndex := i } :: processSimple nodes pm tds target rest (i + 1)
      else processSimple nodes pm tds target rest (i + 1)

/-- The descendant-set membership shortcut in the sample loop never changes
the output: a sample contributes exactly when the target occurs in its
reconstructed ancestor chain, and the contributed record is determined by
that chain. -/
lemma processSamples_eq_simple (nodes : List ProfileNode) (pm : Int → List Int)
    (tds : List Int) (descSet : Finset Int) (target : Int) :
    ∀ (ss : List Int) (i : Nat),
    processSamples nodes pm tds descSet target ss i = processSimple nodes pm tds target ss i := by
  intro ss
  induction ss with
  | nil => intro i; rfl
  | cons s rest ih =>
      intro i
      simp only [processSamples, processSimple]
      rcases hc : chainContains nodes pm target s with _ | _ <;> unfold chainContains at hc
      · by_cases hd : s ∈ descSet
        · rw [if_pos (Or.inl hd), findIdx?_eq_none_of_any hc, ih]
          simp
        · rw [if_neg (by rw [hc]; simp [hd]), ih]
          simp
      · rcases findIdx?_isSome_of_any hc with ⟨ti, hti, hlen⟩
        rw [if_pos (Or.inr hc), hti]
        have hpos : 0 < (((getCallStackUp nodes pm s).take (ti + 1)).reverse).length := by
          simp only [List.length_reverse, List.length_take]
          omega
        dsimp only
        rw [if_pos hpos, ih]
        simp [relevantStackOf, hti]

/-- `buildCallStack` in terms of the simplified sample loop. -/
lemma buildCallStack_eq (p : Profile) (t : Int) :
    buildCallStack p t =
      processSimple p.nodes (buildNodeTree p.nodes).parentMap p.timeDeltas t p.samples 0 := by
  unfold buildCallStack
  exact processSamples_eq_simple _ _ _ _ _ _ _

/-- Unfolding of one ancestor-walk step in append normal form. -/
lemma goUp_succ (nodes : List ProfileNode) (pm : Int → List Int)
    (fuel : Nat) (c : Int) (vis : Finset Int) :
    goUp nodes pm (fuel + 1) c vis =
      if c < 0 ∨ c ∈ vis then []
      else
        (match nodes.get? c.toNat with
         | some node => [mkFrame c node]
         | none => []) ++
        (match pm c with
         | [] => []
         | p :: _ => goUp nodes pm fuel p (insert c vis)) := by
  show (if c < 0 ∨ c ∈ vis then [] else _) = _
  by_cases h : c < 0 ∨ c ∈ vis
  · rw [if_pos h, if_pos h]
  · rw [if_neg h, if_neg h]
    rcases nodes.get? c.toNat with _ | node <;> rcases pm c with _ | ⟨p, ps⟩ <;> simp

/-- No frame of an ancestor walk carries an id that was already visited
when the walk started. -/
lemma goUp_index_not_mem (nodes : List ProfileNode) (pm : Int → List Int) :
    ∀ (fuel : Nat) (c : Int) (vis : Finset Int) (f : Frame),
    f ∈ goUp nodes pm fuel c vis → f.index ∉ vis := by
  intro fuel
  induction fuel with
  | zero => intro c vis f hf; simp [goUp] at hf
  | succ fuel ih =>
      intro c vis f hf
      rw [goUp_succ] at hf
      by_cases h : c < 0 ∨ c ∈ vis
      · rw [if_pos h] at hf; cases hf
      · rw [if_neg h] at hf
        rcases List.mem_append.1 hf with h1 | h2
        · rcases hn : nodes.get? c.toNat with _ | node <;> rw [hn] at h1
          · cases h1
          · have hfc : f = mkFrame c node := List.mem_singleton.1 h1
            subst hfc
            exact fun hv => h (Or.inr hv)
        · rcases hp : pm c with _ | ⟨p, ps⟩ <;> rw [hp] at h2
          · cases h2
          · exact fun hv => ih p (insert c vis) f h2 (Finset.mem_insert_of_mem hv)

/-- The frame ids of an ancestor walk are pairwise distinct (the cycle
guard of `getCallStackUp`). -/
lemma goUp_nodup (nodes : List ProfileNode) (pm : Int → List Int) :
    ∀ (fuel : Nat) (c : Int) (vis : Finset Int),
    ((goUp nodes pm fuel c vis).map Frame.index).Nodup := by
  intro fuel
  induction fuel with
  | zero => intro c vis; simp [goUp]
  | succ fuel ih =>
      intro c vis
      rw [goUp_succ]
      by_cases h : c < 0 ∨ c ∈ vis
      · rw [if_pos h]; simp
      · rw [if_neg h]
        rcases hn : nodes.get? c.toNat with _ | node <;>
          rcases hp : pm c with _ | ⟨p, ps⟩ <;>
          simp only [List.nil_append, List.append_nil, List.map_append, List.map_nil,
            List.map_cons, List.singleton_append]
        · simp
        · exact ih p (insert c vis)
        · simp
        · rw [List.nodup_cons]
          refine ⟨?_, ih p (insert c vis)⟩
          intro hmem
          rcases List.mem_map.1 hmem with ⟨f, hf, hfi⟩
          have hni := goUp_index_not_mem nodes pm fuel p (insert c vis) f hf
          apply hni
          rw [hfi]
          exact Finset.mem_insert_self c vis

/-- An ancestor walk yields at most `fuel` frames. -/
lemma goUp_length_le (nodes : List ProfileNode) (pm : Int → List Int) :
    ∀ (fuel : Nat) (c : Int) (vis : Finset Int),
    (goUp nodes pm fuel c vis).length ≤ fuel := by
  intro fuel
  induction fuel with
  | zero => intro c vis; simp [goUp]
  | succ fuel ih =>
      intro c vis
      rw [goUp_succ]
      by_cases h : c < 0 ∨ c ∈ vis
      · rw [if_pos h]; simp
      · rw [if_neg h]
        rcases hn : nodes.get? c.toNat with _ | node <;>
          rcases hp : pm c with _ | ⟨p, ps⟩ <;>
          simp only [List.nil_append, List.append_nil, List.length_append, List.length_cons,
            List.length_nil, List.length_singleton, List.singleton_append]
        · omega
        · have := ih p (insert c vis); omega
        · omega
        · have := ih p (insert c vis); omega

/-- When the start id addresses a node of the table and fuel remains, the
walk's first frame is the start node itself. -/
lemma goUp_head (nodes : List ProfileNode) (pm : Int → List Int)
    (fuel : Nat) (c : Int) (vis : Finset Int)
    (h1 : 0 ≤ c) (h2 : c < (nodes.length : Int)) (h3 : c ∉ vis) (h4 : 0 < fuel) :
    ∃ node, nodes.get? c.toNat = some node ∧
      (goUp nodes pm fuel c vis).head? = some (mkFrame c node) := by
  obtain ⟨fuel, rfl⟩ : ∃ k, fuel = k + 1 := ⟨fuel - 1, by omega⟩
  rcases hn : nodes.get? c.toNat with _ | node
  · rw [List.get?_eq_none] at hn
    omega
  · refine ⟨node, rfl, ?_⟩
    rw [goUp_succ, if_neg (by push_neg; exact ⟨by omega, h3⟩), hn]
    rcases pm c with _ | ⟨p, ps⟩ <;> simp

/-- When every collected id's children are either collected or queued, a
reachability path starting inside the collected set either stays there or
passes through the worklist. -/
lemma collect_absorb (g : Int → List Int) (work : List Int) (vis : Finset Int)
    (hinv : ∀ a ∈ vis, ∀ y ∈ g a, y ∈ vis ∨ y ∈ work) :
    ∀ {x z : Int}, x ∈ vis → Relation.ReflTransGen (childStep g) x z →
    z ∈ vis ∨ ∃ a ∈ work, Relation.ReflTransGen (childStep g) a z := by
  intro x z hx hr
  induction hr using Relation.ReflTransGen.head_induction_on with
  | refl => exact Or.inl hx
  | head hstep htail ih =>
      rename_i a c
      rcases hinv a hx c hstep with hc | hc
      · exact ih hc
      · exact Or.inr ⟨c, hc, htail⟩

/-- Membership in the result of the worklist collection: exactly the
already-collected ids plus everything reachable (in zero or more child
steps) from the worklist. -/
lemma collectGo_mem (g : Int → List Int) (univ : Finset Int)
    (hg : ∀ x y, y ∈ g x → y ∈ univ) :
    ∀ (work : List Int) (vis : Finset Int),
    (∀ a ∈ vis, ∀ y ∈ g a, y ∈ vis ∨ y ∈ work) →
    ∀ z, (z ∈ collectGo g univ hg work vis ↔
      z ∈ vis ∨ ∃ a ∈ work, Relation.ReflTransGen (childStep g) a z) := by
  intro work vis
  induction work, vis using collectGo.induct g univ hg with
  | case1 vis =>
      intro _ z
      simp [collectGo]
  | case2 x rest vis hx ih =>
      intro hinv z
      have hinv' : ∀ a ∈ vis, ∀ y ∈ g a, y ∈ vis ∨ y ∈ rest := by
        intro a ha y hy
        rcases hinv a ha y hy with h | h
        · exact Or.inl h
        · rcases List.mem_cons.1 h with rfl | h2
          · exact Or.inl hx
          · exact Or.inr h2
      simp only [collectGo, if_pos hx]
      rw [ih hinv']
      constructor
      · rintro (h | ⟨a, ha, hr⟩)
        · exact Or.inl h
        · exact Or.inr ⟨a, List.mem_cons_of_mem _ ha, hr⟩
      · rintro (h | ⟨a, ha, hr⟩)
        · exact Or.inl h
        · rcases List.mem_cons.1 ha with rfl | ha2
          · exact collect_absorb g rest vis hinv' hx hr
          · exact Or.inr ⟨a, ha2, hr⟩
  | case3 x rest vis hx ih =>
      intro hinv z
      have hinv' : ∀ a ∈ insert x vis, ∀ y ∈ g a, y ∈ insert x vis ∨ y ∈ g x ++ rest := by
        intro a ha y hy
        rcases Finset.mem_insert.1 ha with rfl | ha2
        · exact Or.inr (List.mem_append_left _ hy)
        · rcases hinv a ha2 y hy with h | h
          · exact Or.inl (Finset.mem_insert_of_mem h)
          · rcases List.mem_cons.1 h with rfl | h2
            · exact Or.inl (Finset.mem_insert_self _ _)
            · exact Or.inr (List.mem_append_right _ h2)
      simp only [collectGo, if_neg hx]
      rw [ih hinv']
      constructor
      · rintro (h | ⟨a, ha, hr⟩)
        · rcases Finset.mem_insert.1 h with rfl | h2
          · exact Or.inr ⟨z, List.mem_cons_self _ _, Relation.ReflTransGen.refl⟩
          · exact Or.inl h2
        · rcases List.mem_append.1 ha with h1 | h2
          · exact Or.inr ⟨x, List.mem_cons_self _ _, Relation.ReflTransGen.head h1 hr⟩
          · exact Or.inr ⟨a, List.mem_cons_of_mem _ h2, hr⟩
      · rintro (h | ⟨a, ha, hr⟩)
        · exact Or.inl (Finset.mem_insert_of_mem h)
        · rcases List.mem_cons.1 ha with rfl | ha2
          · rcases Relation.ReflTransGen.cases_head hr with rfl | ⟨c, hc, hr2⟩
            · exact Or.inl (Finset.mem_insert_self _ _)
            · exact Or.inr ⟨c, List.mem_append_left _ hc, hr2⟩
          · exact Or.inr ⟨a, List.mem_append_right _ ha2, hr⟩

/-- Folding one record into the keyed map raises the total of the `count`
fields by exactly one. -/
lemma aggInsert_count_sum :
    ∀ (m : List (String × Entry)) (key : String) (callers : List Frame) (delta : Int),
    ((aggInsert m key callers delta).map (fun kv => kv.2.count)).sum =
      (m.map (fun kv => kv.2.count)).sum + 1 := by
  intro m
  induction m with
  | nil => intro key callers delta; simp [aggInsert]
  | cons kv rest ih =>
      intro key callers delta
      rcases kv with ⟨k, e⟩
      simp only [aggInsert]
      by_cases h : k = key
      · rw [if_pos h]
        simp only [List.map_cons, List.sum_cons]
        omega
      · rw [if_neg h]
        simp only [List.map_cons, List.sum_cons, ih]
        omega

/-- Total of the `count` fields after folding a record list into a map. -/
lemma aggregateFold_count_sum :
    ∀ (cs : List CallStackRec) (m : List (String × Entry)),
    ((cs.foldl
        (fun m r => aggInsert m (stackKey r.stack.dropLast) r.stack.dropLast r.timeDelta)
        m).map (fun kv => kv.2.count)).sum =
      (m.map (fun kv => kv.2.count)).sum + cs.length := by
  intro cs
  induction cs with
  | nil => intro m; simp
  | cons r rest ih =>
      intro m
      simp only [List.foldl_cons, List.length_cons, ih, aggInsert_count_sum]
      omega

/-- Each call-stack record contributes exactly one to exactly one entry:
the counts of the aggregation sum to the number of records. -/
lemma aggregate_count_sum (cs : List CallStackRec) :
    ((aggregateCallStacks cs).map Entry.count).sum = cs.length := by
  have hperm : (aggregateCallStacks cs).Perm ((aggregateMap cs).map Prod.snd) := by
    unfold aggregateCallStacks
    exact List.mergeSort_perm _ _
  have hmap := hperm.map Entry.count
  rw [hmap.sum_eq, List.map_map]
  have h1 : List.map (Entry.count ∘ Prod.snd) (aggregateMap cs) =
      (aggregateMap cs).map (fun kv => kv.2.count) := rfl
  rw [h1]
  unfold aggregateMap
  rw [aggregateFold_count_sum]
  simp

/-- Number of records emitted by the sample loop: one per sample whose
reconstructed ancestor chain contains the target. -/
lemma processSimple_length (nodes : List ProfileNode) (pm : Int → List Int)
    (tds : List Int) (target : Int) :
    ∀ (ss : List Int) (i : Nat),
    (processSimple nodes pm tds target ss i).length =
      ss.countP (fun s => chainContains nodes pm target s) := by
  intro ss
  induction ss with
  | nil => intro i; simp [processSimple]
  | cons s rest ih =>
      intro i
      simp only [processSimple, List.countP_cons]
      rcases hc : chainContains nodes pm target s with _ | _
      all_goals simp [hc, ih]

/-- Bookkeeping invariant of one aggregated entry: the count is the number
of recorded per-sample costs, the total is their sum, and at least one
sample has been folded in. -/
def entryInv (e : Entry) : Prop :=
  e.count = e.samples.length ∧ e.totalTime = e.samples.sum ∧ 1 ≤ e.count

/-- `aggInsert` preserves the entry invariant. -/
lemma aggInsert_inv :
    ∀ (m : List (String × Entry)) (key : String) (callers : List Frame) (delta : Int),
    (∀ kv ∈ m, entryInv kv.2) →
    ∀ kv ∈ aggInsert m key callers delta, entryInv kv.2 := by
  intro m
  induction m with
  | nil =>
      intro key callers delta _ kv hkv
      simp only [aggInsert, List.mem_singleton] at hkv
      subst hkv
      refine ⟨rfl, by simp, le_refl 1⟩
  | cons hd rest ih =>
      intro key callers delta hm kv hkv
      rcases hd with ⟨k, e⟩
      simp only [aggInsert] at hkv
      by_cases h : k = key
      · rw [if_pos h] at hkv
        rcases List.mem_cons.1 hkv with rfl | h2
        · have he : entryInv e := hm (k, e) (List.mem_cons_self _ _)
          rcases he with ⟨h1', h2', h3'⟩
          refine ⟨?_, ?_, ?_⟩
          · simp [entryInv, h1']
          · simp [entryInv, h2']
          · simp
        · exact hm kv (List.mem_cons_of_mem _ h2)
      · rw [if_neg h] at hkv
        rcases List.mem_cons.1 hkv with rfl | h2
        · exact hm (k, e) (List.mem_cons_self _ _)
        · exact ih key callers delta (fun kv h => hm kv (List.mem_cons_of_mem _ h)) kv h2

/-- Every entry produced by the aggregation fold satisfies the invariant. -/
lemma aggregateFold_inv :
    ∀ (cs : List CallStackRec) (m : List (String × Entry)),
    (∀ kv ∈ m, entryInv kv.2) →
    ∀ kv ∈ cs.foldl
        (fun m r => aggInsert m (stackKey r.stack.dropLast) r.stack.dropLast r.timeDelta) m,
      entryInv kv.2 := by
  intro cs
  induction cs with
  | nil => intro m hm; exact hm
  | cons r rest ih =>
      intro m hm
      simp only [List.foldl_cons]
      exact ih _ (aggInsert_inv m _ _ _ hm)

/-- Every entry of `aggregateCallStacks` satisfies the invariant. -/
lemma aggregate_inv (cs : List CallStackRec) :
    ∀ e ∈ aggregateCallStacks cs, entryInv e := by
  intro e he
  unfold aggregateCallStacks at he
  rw [List.mem_mergeSort] at he
  rcases List.mem_map.1 he with ⟨kv, hkv, rfl⟩
  exact aggregateFold_inv cs [] (by simp) kv hkv

/-- The comparator is transitive. -/
lemma entryLE_trans (a b c : Entry) (hab : entryLE a b = true) (hbc : entryLE b c = true) :
    entryLE a c = true := by
  unfold entryLE at hab hbc ⊢
  by_cases h1 : a.count = b.count
  · rw [if_pos h1, decide_eq_true_eq] at hab
    by_cases h2 : b.count = c.count
    · rw [if_pos h2, decide_eq_true_eq] at hbc
      rw [if_pos (h1.trans h2), decide_eq_true_eq]
      omega
    · rw [if_neg h2, decide_eq_true_eq] at hbc
      rw [if_neg (by omega), decide_eq_true_eq]
      omega
  · rw [if_neg h1, decide_eq_true_eq] at hab
    by_cases h2 : b.count = c.count
    · rw [if_pos h2, decide_eq_true_eq] at hbc
      rw [if_neg (by omega), decide_eq_true_eq]
      omega
    · rw [if_neg h2, decide_eq_true_eq] at hbc
      rw [if_neg (by omega), decide_eq_true_eq]
      omega

/-- The comparator is total. -/
lemma entryLE_total (a b : Entry) : entryLE a b = true ∨ entryLE b a = true := by
  unfold entryLE
  by_cases h1 : a.count = b.count
  · rw [if_pos h1, if_pos h1.symm, decide_eq_true_eq, decide_eq_true_eq]
    omega
  · rw [if_neg h1, if_neg (fun h => h1 h.symm), decide_eq_true_eq, decide_eq_true_eq]
    omega

/-- Ranking earlier in the comparator means a count at least as large. -/
lemma count_le_of_entryLE {a b : Entry} (h : entryLE a b = true) : b.count ≤ a.count := by
  simp only [entryLE] at h
  by_cases h1 : a.count = b.count
  · omega
  · rw [if_neg h1, decide_eq_true_eq] at h
    omega

/-- `aggInsert` never returns the empty map. -/
lemma aggInsert_ne_nil (m : List (String × Entry)) (key : String)
    (callers : List Frame) (delta : Int) : aggInsert m key callers delta ≠ [] := by
  cases m with
  | nil => simp [aggInsert]
  | cons hd rest =>
      rcases hd with ⟨k, e⟩
      simp only [aggInsert]
      split <;> simp

/-- The aggregation fold preserves nonemptiness of the map. -/
lemma aggregateFold_ne_nil :
    ∀ (cs : List CallStackRec) (m : List (String × Entry)), m ≠ [] →
    cs.foldl
        (fun m r => aggInsert m (stackKey r.stack.dropLast) r.stack.dropLast r.timeDelta)
        m ≠ [] := by
  intro cs
  induction cs with
  | nil => intro m hm; exact hm
  | cons r rest ih =>
      intro m hm
      simp only [List.foldl_cons]
      exact ih _ (aggInsert_ne_nil m _ _ _)

/-- A nonempty record list aggregates to a nonempty entry list. -/
lemma aggregate_ne_nil (cs : List CallStackRec) (h : cs ≠ []) :
    aggregateCallStacks cs ≠ [] := by
  have hmap : aggregateMap cs ≠ [] := by
    rcases cs with _ | ⟨c, rest⟩
    · exact absurd rfl h
    · unfold aggregateMap
      simp only [List.foldl_cons]
      exact aggregateFold_ne_nil rest _ (aggInsert_ne_nil [] _ _ _)
  unfold aggregateCallStacks
  intro hnil
  have hlen := (List.mergeSort_perm ((aggregateMap cs).map Prod.snd) entryLE).length_eq
  rw [hnil] at hlen
  simp only [List.length_nil, List.length_map] at hlen
  exact hmap (List.length_eq_zero.1 hlen.symm)

/-- The aggregation output is sorted by the comparator. -/
lemma aggregate_sorted (cs : List CallStackRec) :
    List.Pairwise (fun a b => entryLE a b = true) (aggregateCallStacks cs) :=
  List.sorted_mergeSort entryLE_trans
    (fun a b => by rcases entryLE_total a b with h | h <;> simp [h]) _

/-- The first (top-ranked) entry of the aggregation carries the largest
count. -/
lemma aggregate_head_max (cs : List CallStackRec) (e0 : Entry) (tail : List Entry)
    (hEq : aggregateCallStacks cs = e0 :: tail) :
    ∀ e ∈ aggregateCallStacks cs, e.count ≤ e0.count := by
  intro e he
  have hs := aggregate_sorted cs
  rw [hEq] at hs he
  rcases List.mem_cons.1 he with rfl | h2
  · exact le_refl _
  · exact count_le_of_entryLE ((List.pairwise_cons.1 hs).1 e h2)

/-- When the keyed map collapses to a single entry the sort is the
identity. -/
lemma aggregate_eq_singleton {cs : List CallStackRec} {e : Entry}
    (h : (aggregateMap cs).map Prod.snd = [e]) : aggregateCallStacks cs = [e] := by
  unfold aggregateCallStacks
  rw [h]
  exact List.perm_singleton.1 (List.mergeSort_perm [e] entryLE)

/-- The 3-node scenario profile of the specification:
root(id 0, no hits) calls A(id 1), A calls B(id 2); samples `[1, 2, 2]`,
time deltas `[100, 200, 300]`. -/
def scenario3 : Profile :=
  { nodes := [
      ⟨⟨"root", "", 0, 0⟩, 0, [1]⟩,
      ⟨⟨"A", "", 1, 0⟩, 2, [2]⟩,
      ⟨⟨"B", "", 2, 0⟩, 3, []⟩],
    samples := [1, 2, 2],
    timeDeltas := [100, 200, 300] }

/-- Profile with two samples at different depths below the target root
node, giving two distinct caller signatures with one sample each. -/
def scenarioTwoKeys : Profile :=
  { nodes := [
      ⟨⟨"root", "", 0, 0⟩, 1, [1]⟩,
      ⟨⟨"A", "", 1, 0⟩, 1, [2]⟩,
      ⟨⟨"B", "", 2, 0⟩, 1, []⟩],
    samples := [1, 2],
    timeDeltas := [100, 200] }

/-- Shared call frame of the chain profiles (all frames render the same
signature fragment). -/
def chainCF : CallFrame := ⟨"f", "", 0, 0⟩

/-- Linear chain of `n` nodes in which node `j + 1` lists node `j` as its
child, so the ancestor walk from node 0 climbs 0, 1, 2, …; with `n = 21`
the default-depth walk is cut off by the ceiling, with `n = 20` it reaches
the root. -/
def chainNodes (n : Nat) : List ProfileNode :=
  (List.range n).map (fun j => ⟨chainCF, 1, if j = 0 then [] else [(j : Int) - 1]⟩)

/-- Single node whose `children` list references the out-of-range index 5. -/
def c9nodes : List ProfileNode := [⟨⟨"g", "", 1, 0⟩, 1, [5]⟩]

/-- Single self-referencing node: node 0 lists itself as a child. -/
def selfLoop : List ProfileNode := [⟨⟨"s", "", 1, 0⟩, 1, [0]⟩]

/-- Single node with no children. -/
def leafNodes : List ProfileNode := [⟨⟨"leaf", "", 1, 0⟩, 1, []⟩]

/-- C3: for every profile and target node, the counts of the aggregated
stack entries sum to exactly the number of samples whose reconstructed
ancestor chain (the walk up from the sample's node) contains the target:
no qualifying sample is double-counted or dropped, and non-qualifying
samples contribute to no entry. -/
theorem c3_count_sum_eq_qualifying (p : Profile) (t : Int) :
    ((aggregateCallStacks (buildCallStack p t)).map Entry.count).sum =
      p.samples.countP (fun s => chainContains p.nodes (buildNodeTree p.nodes).parentMap t s) := by
  rw [aggregate_count_sum, buildCallStack_eq, processSimple_length]

/-- C6: for every graph (any parent map, however cyclic) and every starting
id, the ancestor walk terminates (it is a total function), returns frames
with pairwise-distinct node ids, yields at most `maxDepth` frames, and its
first frame is the starting node itself whenever that id is in range and
any depth budget remains. -/
theorem c6_walk_nodup_bounded (nodes : List ProfileNode) (pm : Int → List Int)
    (nodeId : Int) (maxDepth : Nat) :
    ((getCallStackUp nodes pm nodeId maxDepth).map Frame.index).Nodup ∧
    (getCallStackUp nodes pm nodeId maxDepth).length ≤ maxDepth ∧
    (0 ≤ nodeId → nodeId < (nodes.length : Int) → 0 < maxDepth →
      ∃ node, nodes.get? nodeId.toNat = some node ∧
        (getCallStackUp nodes pm nodeId maxDepth).head? = some (mkFrame nodeId node)) := by
  refine ⟨goUp_nodup nodes pm maxDepth nodeId ∅, goUp_length_le nodes pm maxDepth nodeId ∅, ?_⟩
  intro h1 h2 h3
  exact goUp_head nodes pm maxDepth nodeId ∅ h1 h2 (Finset.not_mem_empty _) h3

/-- Witness for C6 on the self-referencing single-node graph: the walk from
node 0 terminates with distinct ids, at most 20 frames, headed by node 0. -/
theorem c6_walk_nodup_bounded_witness :
    ((getCallStackUp selfLoop (buildNodeTree selfLoop).parentMap 0 20).map Frame.index).Nodup ∧
    (getCallStackUp selfLoop (buildNodeTree selfLoop).parentMap 0 20).length ≤ 20 ∧
    ∃ node, selfLoop.get? (0 : Int).toNat = some node ∧
      (getCallStackUp selfLoop (buildNodeTree selfLoop).parentMap 0 20).head? =
        some (mkFrame 0 node) :=
  ⟨(c6_walk_nodup_bounded selfLoop (buildNodeTree selfLoop).parentMap 0 20).1,
   (c6_walk_nodup_bounded selfLoop (buildNodeTree selfLoop).parentMap 0 20).2.1,
   (c6_walk_nodup_bounded selfLoop (buildNodeTree selfLoop).parentMap 0 20).2.2
     (by decide) (by decide) (by decide)⟩

/-- C7: for every node table, the child map records exactly the edges
declared by the nodes' `children` lists and the parent map records exactly
their reversals, so adjacency is symmetric by construction and contains no
other edges. -/
theorem c7_adjacency_symmetric (nodes : List ProfileNode) (i c : Int) :
    (c ∈ (buildNodeTree nodes).childMap i ↔ c ∈ childrenAt nodes i) ∧
    (i ∈ (buildNodeTree nodes).parentMap c ↔ c ∈ childrenAt nodes i) :=
  ⟨mem_childMap nodes i c, mem_parentMap nodes c i⟩

/-- C8: `collectDescendants` is total (it terminates on every graph,
including cycles back to the start node, by the visited-set argument made
explicit in `collectGo`) and returns a finite set; it returns the empty set
when the node has no recorded children; and membership is exactly
reachability through one or more child edges — in particular the start node
belongs to its own descendant set iff a child-edge cycle leads back to it,
and then only once, the result being a set. -/
theorem c8_collect_descendants (nodes : List ProfileNode) (n : Int) :
    ((buildNodeTree nodes).childMap n = [] → collectDescendants nodes n = ∅) ∧
    (∀ z, z ∈ collectDescendants nodes n ↔
      ∃ y ∈ (buildNodeTree nodes).childMap n,
        Relation.ReflTransGen (childStep (buildNodeTree nodes).childMap) y z) := by
  constructor
  · intro h
    unfold collectDescendants
    rw [h]
    simp [collectGo]
  · intro z
    unfold collectDescendants
    rw [collectGo_mem _ _ _ _ _ (by simp) z]
    simp

/-- Witness for C8: a childless node collects the empty set, and for the
self-referencing node membership of the start node reduces to the
child-edge cycle. -/
theorem c8_collect_descendants_witness :
    collectDescendants leafNodes 0 = ∅ ∧
    ((0 : Int) ∈ collectDescendants selfLoop 0 ↔
      ∃ y ∈ (buildNodeTree selfLoop).childMap 0,
        Relation.ReflTransGen (childStep (buildNodeTree selfLoop).childMap) y 0) :=
  ⟨(c8_collect_descendants leafNodes 0).1 (by decide),
   (c8_collect_descendants selfLoop 0).2 0⟩

/-- C10: every entry emitted by `aggregateCallStacks` keeps count equal to
the length of its per-sample cost list, total time equal to that list's
sum, and a count of at least one, after any sequence of qualifying call
stacks. -/
theorem c10_entry_bookkeeping (cs : List CallStackRec) :
    ∀ e ∈ aggregateCallStacks cs,
      e.count = e.samples.length ∧ e.totalTime = e.samples.sum ∧ 1 ≤ e.count := by
  intro e he
  exact aggregate_inv cs e he

/-- Witness for C10 on a single one-record aggregation. -/
theorem c10_entry_bookkeeping_witness :
    ({ stack := [], count := 1, totalTime := 7, samples := [7] } : Entry).count =
      ({ stack := [], count := 1, totalTime := 7, samples := [7] } : Entry).samples.length ∧
    ({ stack := [], count := 1, totalTime := 7, samples := [7] } : Entry).totalTime =
      ({ stack := [], count := 1, totalTime := 7, samples := [7] } : Entry).samples.sum ∧
    1 ≤ ({ stack := [], count := 1, totalTime := 7, samples := [7] } : Entry).count :=
  c10_entry_bookkeeping [{ stack := [], timeDelta := 7, sampleIndex := 0 }]
    { stack := [], count := 1, totalTime := 7, samples := [7] }
    (by
      have h : aggregateCallStacks [{ stack := [], timeDelta := 7, sampleIndex := 0 }] =
          [{ stack := [], count := 1, totalTime := 7, samples := [7] }] :=
        aggregate_eq_singleton (by decide)
      rw [h]
      exact List.mem_singleton_self _)

/-- C1 (code bug): on the specification's own 3-node profile with target
B (index 2) the reconstructed ancestor chain of the qualifying samples is
`[2, 1, 0]`, so the claim (and the source's inline comments, which call the
aggregation key "the callers — everything above the target function" with
"target at the end") require the aggregated caller frames `[0, 1]`
(root → A); the code instead slices `fullStack.slice(0, targetIndex + 1)`
— the segment from the sample UP TO the target — and then drops its last
element, the sample frame, so every record keeps `[2]` and every aggregated
entry an EMPTY caller list. -/
theorem c1_callers_slice_evaluation :
    (getCallStackUp scenario3.nodes (buildNodeTree scenario3.nodes).parentMap 2).map
        Frame.index = [2, 1, 0] ∧
    (buildCallStack scenario3 2).map (fun r => r.stack.map Frame.index) = [[2], [2]] ∧
    (aggregateCallStacks (buildCallStack scenario3 2)).map
        (fun e => e.stack.map Frame.index) = [[]] := by
  refine ⟨by decide, ?_, ?_⟩
  · rw [buildCallStack_eq]
    decide
  · have h : aggregateCallStacks (buildCallStack scenario3 2) =
        [{ stack := [], count := 2, totalTime := 500, samples := [200, 300] }] := by
      apply aggregate_eq_singleton
      rw [buildCallStack_eq]
      decide
    rw [h]
    decide

/-- C2 counterexample: on the 3-node scenario with target B the analysis
does NOT qualify all 3 samples and does NOT emit a `root -> A` entry with
count 3 and totalTime 600; it emits a single empty-caller entry with count
2 and totalTime 500. -/
theorem c2_scenario_counterexample :
    (aggregateCallStacks (buildCallStack scenario3 2)).map
        (fun e => (e.stack.map Frame.index, e.count, e.totalTime)) = [([], 2, 500)] ∧
    ¬ ((aggregateCallStacks (buildCallStack scenario3 2)).map
        (fun e => (e.stack.map Frame.index, e.count, e.totalTime)) = [([0, 1], 3, 600)]) := by
  have h : aggregateCallStacks (buildCallStack scenario3 2) =
      [{ stack := [], count := 2, totalTime := 500, samples := [200, 300] }] := by
    apply aggregate_eq_singleton
    rw [buildCallStack_eq]
    decide
  rw [h]
  exact ⟨by decide, by decide⟩

/-- C2 as amended: analyzing target B on the 3-node scenario qualifies only
the two samples taken at node B itself (the sample at node A is skipped
because B is not in A's ancestor chain), and produces exactly one
aggregated entry, whose caller list is empty, with count 2, totalTime 500
and per-sample costs `[200, 300]`. -/
theorem c2_scenario_amended :
    (buildCallStack scenario3 2).map
        (fun r => (r.sampleIndex, r.timeDelta, r.stack.map Frame.index)) =
      [(1, 200, [2]), (2, 300, [2])] ∧
    aggregateCallStacks (buildCallStack scenario3 2) =
      [{ stack := [], count := 2, totalTime := 500, samples := [200, 300] }] := by
  constructor
  · rw [buildCallStack_eq]
    decide
  · apply aggregate_eq_singleton
    rw [buildCallStack_eq]
    decide

/-- C4 counterexample: the default-depth walk from node 0 of the 21-node
chain stops at the depth ceiling with a parent (node 20) still unvisited —
a truncated walk — while the same walk on the 20-node chain reaches the
parentless root; the two walks return literally identical frame lists, so
the caller-signature built from the truncated walk is indistinguishable in
aggregation from that of the root-reaching walk: truncation is not marked. -/
theorem c4_truncation_unmarked_counterexample :
    getCallStackUp (chainNodes 21) (buildNodeTree (chainNodes 21)).parentMap 0 =
      getCallStackUp (chainNodes 20) (buildNodeTree (chainNodes 20)).parentMap 0 ∧
    (getCallStackUp (chainNodes 21) (buildNodeTree (chainNodes 21)).parentMap 0).map
        Frame.index = (List.range 20).map (fun j => (j : Int)) ∧
    (buildNodeTree (chainNodes 21)).parentMap 19 = [20] ∧
    (buildNodeTree (chainNodes 20)).parentMap 19 = [] ∧
    stackKey (getCallStackUp (chainNodes 21) (buildNodeTree (chainNodes 21)).parentMap 0) =
      stackKey (getCallStackUp (chainNodes 20) (buildNodeTree (chainNodes 20)).parentMap 0) := by
  have h1 : getCallStackUp (chainNodes 21) (buildNodeTree (chainNodes 21)).parentMap 0 =
      getCallStackUp (chainNodes 20) (buildNodeTree (chainNodes 20)).parentMap 0 := by decide
  exact ⟨h1, by decide, by decide, by decide, congrArg stackKey h1⟩

/-- C4 as amended: a walk that hits the depth ceiling carries no truncation
marker — the caller-signature is a function of the frames' rendered data
alone, so any two walks with equal per-frame signatures (truncated or not)
yield equal signature keys and aggregate together. -/
theorem c4_signature_ignores_truncation (s1 s2 : List Frame)
    (h : s1.map frameSig = s2.map frameSig) : stackKey s1 = stackKey s2 := by
  unfold stackKey
  rw [h]

/-- Witness for the amended C4: the truncated 21-chain walk and the
root-reaching 20-chain walk get the same signature key. -/
theorem c4_signature_ignores_truncation_witness :
    stackKey (getCallStackUp (chainNodes 21) (buildNodeTree (chainNodes 21)).parentMap 0) =
      stackKey (getCallStackUp (chainNodes 20) (buildNodeTree (chainNodes 20)).parentMap 0) :=
  c4_signature_ignores_truncation
    (getCallStackUp (chainNodes 21) (buildNodeTree (chainNodes 21)).parentMap 0)
    (getCallStackUp (chainNodes 20) (buildNodeTree (chainNodes 20)).parentMap 0)
    (congrArg (List.map frameSig)
      (by decide :
        getCallStackUp (chainNodes 21) (buildNodeTree (chainNodes 21)).parentMap 0 =
          getCallStackUp (chainNodes 20) (buildNodeTree (chainNodes 20)).parentMap 0))

/-- C5 counterexample: on the two-key scenario (two caller signatures with
one sample each, so 2 qualifying samples in total), the percentage computed
by `formatStackEntry` divides by `maxCount` — the count of the top-ranked
entry (`aggregated[0]?.count || 1`), here 1 — so an entry shows 100%, not
the claimed `count / total * 100 = 50%`. -/
theorem c5_percentage_counterexample :
    ∃ e ∈ aggregateCallStacks (buildCallStack scenarioTwoKeys 0),
      percentageOf e (maxCountOf (aggregateCallStacks (buildCallStack scenarioTwoKeys 0))) ≠
        (e.count : ℚ) /
          ((((aggregateCallStacks (buildCallStack scenarioTwoKeys 0)).map Entry.count).sum : Nat) : ℚ)
          * 100 := by
  have hmap : (aggregateMap (buildCallStack scenarioTwoKeys 0)).map Prod.snd =
      [{ stack := [{ index := 0, function := "root", url := "", line := 0, column := 0 }],
         count := 1, totalTime := 100, samples := [100] },
       { stack := [{ index := 0, function := "root", url := "", line := 0, column := 0 },
                   { index := 1, function := "A", url := "", line := 1, column := 0 }],
         count := 1, totalTime := 200, samples := [200] }] := by
    rw [buildCallStack_eq]
    decide
  have hne : aggregateCallStacks (buildCallStack scenarioTwoKeys 0) ≠ [] := by
    apply aggregate_ne_nil
    rw [buildCallStack_eq]
    decide
  obtain ⟨e0, tail, hL⟩ := List.exists_cons_of_ne_nil hne
  have he0 : e0 ∈ aggregateCallStacks (buildCallStack scenarioTwoKeys 0) := by
    rw [hL]
    exact List.mem_cons_self _ _
  have hCount : ∀ e ∈ aggregateCallStacks (buildCallStack scenarioTwoKeys 0), e.count = 1 := by
    intro e he
    have hm : e ∈ (aggregateMap (buildCallStack scenarioTwoKeys 0)).map Prod.snd := by
      unfold aggregateCallStacks at he
      exact List.mem_mergeSort.1 he
    rw [hmap] at hm
    rcases List.mem_cons.1 hm with rfl | hm2
    · rfl
    · rcases List.mem_cons.1 hm2 with rfl | hm3
      · rfl
      · cases hm3
  have hc0 : e0.count = 1 := hCount e0 he0
  have hmax : maxCountOf (aggregateCallStacks (buildCallStack scenarioTwoKeys 0)) = 1 := by
    rw [hL]
    simp [maxCountOf, hc0]
  have hsum : ((aggregateCallStacks (buildCallStack scenarioTwoKeys 0)).map Entry.count).sum
      = 2 := by
    rw [aggregate_count_sum, buildCallStack_eq]
    decide
  refine ⟨e0, he0, ?_⟩
  rw [hmax, hsum]
  simp only [percentageOf, hc0]
  norm_num

/-- C5 as amended: the percentage shown for each aggregated entry equals
the entry's count divided by the count of the TOP-RANKED entry (the maximum
count over all entries, which `analyzeProfile` passes as `maxCount`), times
100 — not by the target's total qualifying samples. -/
theorem c5_percentage_of_max (cs : List CallStackRec) (h : cs ≠ []) :
    ∃ e0 tail, aggregateCallStacks cs = e0 :: tail ∧
      maxCountOf (aggregateCallStacks cs) = e0.count ∧
      ∀ e ∈ aggregateCallStacks cs,
        e.count ≤ e0.count ∧
        percentageOf e (maxCountOf (aggregateCallStacks cs)) =
          (e.count : ℚ) / (e0.count : ℚ) * 100 := by
  obtain ⟨e0, tail, hL⟩ := List.exists_cons_of_ne_nil (aggregate_ne_nil cs h)
  have he0 : e0 ∈ aggregateCallStacks cs := by
    rw [hL]
    exact List.mem_cons_self _ _
  have hinv := aggregate_inv cs e0 he0
  have hc0 : 1 ≤ e0.count := hinv.2.2
  have hmax : maxCountOf (aggregateCallStacks cs) = e0.count := by
    rw [hL]
    simp only [maxCountOf]
    rw [if_neg (by omega)]
  refine ⟨e0, tail, hL, hmax, ?_⟩
  intro e he
  refine ⟨aggregate_head_max cs e0 tail hL e he, ?_⟩
  rw [hmax]
  rfl

/-- Witness for the amended C5 on a one-record aggregation. -/
theorem c5_percentage_of_max_witness :
    ∃ e0 tail,
      aggregateCallStacks [({ stack := [], timeDelta := 5, sampleIndex := 0 } : CallStackRec)] =
        e0 :: tail ∧
      maxCountOf (aggregateCallStacks
        [({ stack := [], timeDelta := 5, sampleIndex := 0 } : CallStackRec)]) = e0.count ∧
      ∀ e ∈ aggregateCallStacks
          [({ stack := [], timeDelta := 5, sampleIndex := 0 } : CallStackRec)],
        e.count ≤ e0.count ∧
        percentageOf e (maxCountOf (aggregateCallStacks
            [({ stack := [], timeDelta := 5, sampleIndex := 0 } : CallStackRec)])) =
          (e.count : ℚ) / (e0.count : ℚ) * 100 :=
  c5_percentage_of_max [{ stack := [], timeDelta := 5, sampleIndex := 0 }] (by decide)

/-- C9 counterexample: node 0's children list references the out-of-range
index 5, and the ancestor walk STARTED at 5 does not dead-end there: it
pushes no frame for 5 but follows the recorded parent edge back to node 0
and returns node 0's frame — the walk continues past the out-of-range id. -/
theorem c9_out_of_range_counterexample :
    (c9nodes.length : Int) ≤ 5 ∧
    (getCallStackUp c9nodes (buildNodeTree c9nodes).parentMap 5).map Frame.index = [0] ∧
    getCallStackUp c9nodes (buildNodeTree c9nodes).parentMap 5 ≠ [] := by
  refine ⟨by decide, by decide, by decide⟩

/-- C9 as amended: the indexer records malformed child ids like any others
and rejects nothing, and the walker never faults on them: a negative start
id produces the empty walk, while a start id at or beyond the node-table
length produces no frame for that id but still follows its first recorded
parent edge, continuing the walk from the parent. -/
theorem c9_out_of_range_behavior (nodes : List ProfileNode) (pm : Int → List Int)
    (nodeId : Int) (d : Nat) :
    (nodeId < 0 → getCallStackUp nodes pm nodeId d = []) ∧
    (0 ≤ nodeId → (nodes.length : Int) ≤ nodeId →
      (pm nodeId = [] → getCallStackUp nodes pm nodeId d = []) ∧
      (0 < d → ∀ p ps, pm nodeId = p :: ps →
        getCallStackUp nodes pm nodeId d = goUp nodes pm (d - 1) p (insert nodeId ∅))) := by
  constructor
  · intro hneg
    cases d with
    | zero => rfl
    | succ k =>
        unfold getCallStackUp
        rw [goUp_succ, if_pos (Or.inl hneg)]
  · intro h0 hlen
    have hnone : nodes.get? nodeId.toNat = none := List.get?_eq_none.2 (by omega)
    constructor
    · intro hpm
      cases d with
      | zero => rfl
      | succ k =>
          unfold getCallStackUp
          rw [goUp_succ, if_neg (by push_neg; exact ⟨by omega, Finset.not_mem_empty _⟩),
            hnone, hpm]
          rfl
    · intro hd p ps hpm
      obtain ⟨k, rfl⟩ : ∃ k, d = k + 1 := ⟨d - 1, by omega⟩
      unfold getCallStackUp
      rw [goUp_succ, if_neg (by push_neg; exact ⟨by omega, Finset.not_mem_empty _⟩),
        hnone, hpm]
      simp

/-- Witness for the amended C9 at the malformed one-node table: a negative
start id gives the empty walk, and the out-of-range start id 5 continues
from its recorded parent 0. -/
theorem c9_out_of_range_behavior_witness :
    getCallStackUp c9nodes (buildNodeTree c9nodes).parentMap (-1) 20 = [] ∧
    getCallStackUp c9nodes (buildNodeTree c9nodes).parentMap 5 20 =
      goUp c9nodes (buildNodeTree c9nodes).parentMap (20 - 1) 0 (insert 5 ∅) :=
  ⟨(c9_out_of_range_behavior c9nodes (buildNodeTree c9nodes).parentMap (-1) 20).1 (by decide),
   ((c9_out_of_range_behavior c9nodes (buildNodeTree c9nodes).parentMap 5 20).2 (by decide)
      (by decide)).2 (by decide) 0 [] (by decide)⟩
